import Mathlib

/-
Verification of the ai-reader core, a shallow embedding of
src/extraction.py, src/mood.py and src/prompt.py.

Modelling conventions:
* The three pretrained models are opaque oracles and appear as function
  parameters: the NER oracle maps text to a token sequence, the emotion
  oracle maps text to a label distribution, the parser oracle maps text
  to a list of sentences, each a list of dependency-annotated tokens.
* Python floats are modelled as rationals; Python strings as Lean Strings
  and Python slicing as operations on the underlying character list.
* Fallible Python code (uncaught TypeError, IndexError, StopIteration)
  is modelled with Option / Except: the error string names the Python
  exception that the corresponding input raises.
-/

namespace AIReader

/-- A token-level prediction of the NER oracle, one element of the raw
pipeline output: Python dict with keys word, entity_group (reshaped by
perform_ner into the key entity) and score. -/
structure Tok where
  word : String
  entity : String
  score : ℚ
deriving DecidableEq

/-- A reconstructed entity as produced by reconstruct_entities: Python dict
with keys text, type and score. -/
structure Entity where
  text : String
  type : String
  score : ℚ
deriving DecidableEq

/-- Python str.startswith, modelled over the character list (a Python
string is a sequence of code points). -/
def pyStartsWith (s p : String) : Bool :=
  p.data.isPrefixOf s.data

/-- One step of the continuation-merging loop in reconstruct_entities
(extraction.py lines 81-84): append the sub-word with its marker stripped
and keep the lowest score. -/
def absorb (c : Entity) (e : Tok) : Entity :=
  ⟨c.text ++ e.word.drop 2, c.type, min c.score e.score⟩

/-- The loop body of reconstruct_entities (extraction.py lines 76-96).
The accumulator current_entity is Python None or a dict, modelled as
Option Entity; appending to a None accumulator is Python TypeError,
modelled as none. -/
def reconLoop : List Tok → List Entity → Option Entity → Option (List Entity)
  | [], acc, cur => some (acc ++ cur.toList)
  | e :: rest, acc, cur =>
    if pyStartsWith e.word "##" then
      -- current_entity["text"] += e["word"][2:] ; score := min of the two
      match cur with
      | none => none
      | some c => reconLoop rest acc (some (absorb c e))
    else
      -- flush the open accumulator, then start a new entity from this token
      reconLoop rest (acc ++ cur.toList) (some ⟨e.word, e.entity, e.score⟩)

/-- reconstruct_entities (extraction.py lines 63-96): merge sub-word tokens
into whole-word entities. -/
def reconstruct_entities (ents : List Tok) : Option (List Entity) :=
  reconLoop ents [] none

/-- perform_ner (extraction.py lines 36-61): run the NER oracle, reshape
each raw prediction (the reshape only renames the key entity_group to
entity, which the Tok structure already reflects) and merge sub-words. -/
def perform_ner (oracle : String → List Tok) (text : String) :
    Option (List Entity) :=
  reconstruct_entities (oracle text)

/-- A token is a continuation token when its word carries the sub-word
marker prefix. -/
def isCont (t : Tok) : Bool :=
  pyStartsWith t.word "##"

/-- Modelled on the spec wording for the Entity Extractor: split the token
sequence into maximal runs, each a non-continuation token followed by its
continuation tokens. -/
def groupRuns : List Tok → List (Tok × List Tok)
  | [] => []
  | t :: rest =>
    (t, rest.takeWhile isCont) :: groupRuns (rest.dropWhile isCont)
termination_by l => l.length
decreasing_by
  simp only [List.length_cons]
  exact Nat.lt_succ_of_le (List.dropWhile_sublist isCont |>.length_le)

/-- Modelled on the spec wording for the Entity Extractor: merge one run
into a single entity, the first token's word extended by each stripped
continuation, the first token's type, and the running minimum of scores. -/
def mergeRun (r : Tok × List Tok) : Entity :=
  ⟨r.2.foldl (fun s e => s ++ e.word.drop 2) r.1.word,
   r.1.entity,
   r.2.foldl (fun s e => min s e.score) r.1.score⟩

theorem absorb_foldl (conts : List Tok) :
    ∀ w ty sc, conts.foldl absorb ⟨w, ty, sc⟩ =
      ⟨conts.foldl (fun s e => s ++ e.word.drop 2) w, ty,
       conts.foldl (fun s e => min s e.score) sc⟩ := by
  induction conts with
  | nil => intro w ty sc; rfl
  | cons e cs ih =>
    intro w ty sc
    simp only [List.foldl_cons]
    exact ih _ _ _

theorem reconLoop_conts (conts : List Tok) :
    ∀ rest acc c, (∀ t ∈ conts, isCont t = true) →
      reconLoop (conts ++ rest) acc (some c) =
        reconLoop rest acc (some (conts.foldl absorb c)) := by
  induction conts with
  | nil => intro rest acc c _; rfl
  | cons e cs ih =>
    intro rest acc c hall
    have he : pyStartsWith e.word "##" = true :=
      hall e (List.mem_cons_self e cs)
    simp only [List.cons_append, reconLoop, he, if_pos, List.foldl_cons]
    exact ih rest acc (absorb c e) fun t ht => hall t (List.mem_cons_of_mem e ht)

theorem dropWhile_head_not_cont {l : List Tok} {t : Tok} {rest : List Tok}
    (h : l.dropWhile isCont = t :: rest) : isCont t = false := by
  induction l with
  | nil => simp at h
  | cons a l ih =>
    rw [List.dropWhile_cons] at h
    by_cases ha : isCont a = true
    · rw [if_pos ha] at h
      exact ih h
    · rw [if_neg ha] at h
      cases h
      exact Bool.eq_false_iff.mpr ha

theorem mem_takeWhile_cont {l : List Tok} {t : Tok}
    (h : t ∈ l.takeWhile isCont) : isCont t = true := by
  induction l with
  | nil => simp at h
  | cons a l ih =>
    rw [List.takeWhile_cons] at h
    by_cases ha : isCont a = true
    · rw [if_pos ha] at h
      rcases List.mem_cons.mp h with rfl | h
      · exact ha
      · exact ih h
    · rw [if_neg ha] at h
      simp at h

theorem reconLoop_grouped :
    ∀ (n : Nat) (toks : List Tok), toks.length ≤ n →
      (∀ t rest, toks = t :: rest → isCont t = false) →
      ∀ acc c, reconLoop toks acc (some c) =
        some (acc ++ c :: (groupRuns toks).map mergeRun) := by
  intro n
  induction n with
  | zero =>
    intro toks hlen _ acc c
    have : toks = [] := List.length_eq_zero.mp (Nat.le_zero.mp hlen)
    subst this
    simp [reconLoop, groupRuns]
  | succ n ih =>
    intro toks hlen hhead acc c
    match toks with
    | [] => simp [reconLoop, groupRuns]
    | t :: rest =>
      have ht : isCont t = false := hhead t rest rfl
      have hsplit : rest.takeWhile isCont ++ rest.dropWhile isCont = rest :=
        List.takeWhile_append_dropWhile isCont rest
      have step : reconLoop (t :: rest) acc (some c) =
          reconLoop rest (acc ++ [c]) (some ⟨t.word, t.entity, t.score⟩) := by
        simp only [isCont] at ht
        simp [reconLoop, ht]
      rw [step]
      conv_lhs => rw [← hsplit]
      rw [reconLoop_conts (rest.takeWhile isCont) (rest.dropWhile isCont)
        (acc ++ [c]) ⟨t.word, t.entity, t.score⟩
        (fun u hu => mem_takeWhile_cont hu)]
      rw [absorb_foldl]
      have hlen2 : (rest.dropWhile isCont).length ≤ n := by
        have h1 : (rest.dropWhile isCont).length ≤ rest.length :=
          (List.dropWhile_sublist isCont).length_le


        exact Nat.le_trans h1 (Nat.le_of_succ_le_succ hlen)
      have hhead2 : ∀ u rest2, rest.dropWhile isCont = u :: rest2 →
          isCont u = false := fun u rest2 hu => dropWhile_head_not_cont hu
      rw [ih (rest.dropWhile isCont) hlen2 hhead2]
      have hgr : groupRuns (t :: rest) =
          (t, rest.takeWhile isCont) :: groupRuns (rest.dropWhile isCont) := by
        rw [groupRuns]
      rw [hgr]
      simp [mergeRun]

theorem groupRuns_join :
    ∀ (n : Nat) (toks : List Tok), toks.length ≤ n →
      ((groupRuns toks).map fun r => r.1 :: r.2).flatten = toks := by
  intro n
  induction n with
  | zero =>
    intro toks hlen
    have : toks = [] := List.length_eq_zero.mp (Nat.le_zero.mp hlen)
    subst this
    simp [groupRuns]
  | succ n ih =>
    intro toks hlen
    match toks with
    | [] => simp [groupRuns]
    | t :: rest =>
      have hgr : groupRuns (t :: rest) =
          (t, rest.takeWhile isCont) :: groupRuns (rest.dropWhile isCont) := by
        rw [groupRuns]
      rw [hgr]
      simp only [List.map_cons, List.flatten_cons]
      have hlen2 : (rest.dropWhile isCont).length ≤ n :=
        Nat.le_trans (List.dropWhile_sublist isCont).length_le
          (Nat.le_of_succ_le_succ hlen)
      rw [ih (rest.dropWhile isCont) hlen2]
      simp [List.takeWhile_append_dropWhile]

theorem groupRuns_runs_shape :
    ∀ (n : Nat) (toks : List Tok), toks.length ≤ n →
      (∀ t rest, toks = t :: rest → isCont t = false) →
      ∀ r ∈ groupRuns toks, isCont r.1 = false ∧ ∀ u ∈ r.2, isCont u = true := by
  intro n
  induction n with
  | zero =>
    intro toks hlen _ r hr
    have : toks = [] := List.length_eq_zero.mp (Nat.le_zero.mp hlen)
    subst this
    simp [groupRuns] at hr
  | succ n ih =>
    intro toks hlen hhead r hr
    match toks with
    | [] => simp [groupRuns] at hr
    | t :: rest =>
      have hgr : groupRuns (t :: rest) =
          (t, rest.takeWhile isCont) :: groupRuns (rest.dropWhile isCont) := by
        rw [groupRuns]
      rw [hgr] at hr
      rcases List.mem_cons.mp hr with rfl | hr2
      · exact ⟨hhead t rest rfl, fun u hu => mem_takeWhile_cont hu⟩
      · have hlen2 : (rest.dropWhile isCont).length ≤ n :=
          Nat.le_trans (List.dropWhile_sublist isCont).length_le
            (Nat.le_of_succ_le_succ hlen)
        exact ih (rest.dropWhile isCont) hlen2
          (fun u rest2 hu => dropWhile_head_not_cont hu) r hr2

theorem foldl_min_le_init (l : List ℚ) : ∀ a : ℚ, l.foldl min a ≤ a := by
  induction l with
  | nil => intro a; exact le_refl a
  | cons x l ih =>
    intro a
    simp only [List.foldl_cons]
    exact le_trans (ih (min a x)) (min_le_left a x)

theorem foldl_min_mem (l : List ℚ) : ∀ a : ℚ, l.foldl min a ∈ a :: l := by
  induction l with
  | nil => intro a; simp
  | cons x l ih =>
    intro a
    simp only [List.foldl_cons]
    rcases List.mem_cons.mp (ih (min a x)) with h | h
    · rcases min_choice a x with hc | hc
      · rw [h, hc]; exact List.mem_cons_self a (x :: l)
      · rw [h, hc]
        exact List.mem_cons_of_mem a (List.mem_cons_self x l)
    · exact List.mem_cons_of_mem a (List.mem_cons_of_mem x h)

theorem foldl_min_le (l : List ℚ) :
    ∀ (a s : ℚ), s ∈ a :: l → l.foldl min a ≤ s := by
  induction l with
  | nil =>
    intro a s hs
    rcases List.mem_cons.mp hs with rfl | h
    · exact le_refl s
    · simp at h
  | cons x l ih =>
    intro a s hs
    simp only [List.foldl_cons]
    rcases List.mem_cons.mp hs with rfl | hs2
    · exact le_trans (foldl_min_le_init l _) (min_le_left _ _)
    · rcases List.mem_cons.mp hs2 with rfl | hs3
      · exact le_trans (foldl_min_le_init l _) (min_le_right _ _)
      · exact ih (min a x) s (List.mem_cons_of_mem (min a x) hs3)

/-- The precondition under which reconstruct_entities returns a value: the
first token, when there is one, is not a continuation token. -/
def headOk : List Tok → Prop
  | [] => True
  | t :: _ => isCont t = false

instance (l : List Tok) : Decidable (headOk l) :=
  match l with
  | [] => isTrue trivial
  | t :: _ => inferInstanceAs (Decidable (isCont t = false))

theorem headOk_forall {toks : List Tok} (h : headOk toks) :
    ∀ t rest, toks = t :: rest → isCont t = false := by
  intro t rest he
  subst he
  exact h

theorem reconstruct_entities_eq (toks : List Tok) (h : headOk toks) :
    reconstruct_entities toks = some ((groupRuns toks).map mergeRun) := by
  have h' := headOk_forall h
  match toks with
  | [] => simp [reconstruct_entities, reconLoop, groupRuns]
  | t :: rest =>
    have ht : isCont t = false := h' t rest rfl
    have step : reconstruct_entities (t :: rest) =
        reconLoop rest [] (some ⟨t.word, t.entity, t.score⟩) := by
      simp only [isCont] at ht
      simp [reconstruct_entities, reconLoop, ht]
    rw [step]
    conv_lhs => rw [← List.takeWhile_append_dropWhile isCont rest]
    rw [reconLoop_conts (rest.takeWhile isCont) (rest.dropWhile isCont)
      [] ⟨t.word, t.entity, t.score⟩ (fun u hu => mem_takeWhile_cont hu)]
    rw [absorb_foldl]
    rw [reconLoop_grouped (rest.dropWhile isCont).length
      (rest.dropWhile isCont) (le_refl _)
      (fun u rest2 hu => dropWhile_head_not_cont hu)]
    have hgr : groupRuns (t :: rest) =
        (t, rest.takeWhile isCont) :: groupRuns (rest.dropWhile isCont) := by
      rw [groupRuns]
    rw [hgr]
    simp [mergeRun]

/-- Claim C1: on any oracle token sequence that starts with a
non-continuation token, reconstruct_entities merges each maximal run (a
non-continuation token followed by its continuation tokens) into a single
entity whose text is the first token's word with each stripped continuation
appended without a space, whose type is the first token's type, and whose
score is the minimum of the constituent scores; the sub-word example
merges Har / ##ry (scores 0.9 / 0.95) into Harry with score 0.9, and the
empty sequence yields the empty list. -/
theorem C1_reconstruct_entities_merges_runs (toks : List Tok)
    (h : headOk toks) :
    reconstruct_entities toks = some ((groupRuns toks).map mergeRun)
    ∧ ((groupRuns toks).map fun r => r.1 :: r.2).flatten = toks
    ∧ (∀ r ∈ groupRuns toks, isCont r.1 = false ∧ ∀ u ∈ r.2, isCont u = true)
    ∧ (∀ r ∈ groupRuns toks,
        (mergeRun r).type = r.1.entity
        ∧ (mergeRun r).score ∈ r.1.score :: r.2.map Tok.score
        ∧ ∀ s ∈ r.1.score :: r.2.map Tok.score, (mergeRun r).score ≤ s)
    ∧ reconstruct_entities [⟨"Har", "PER", 9/10⟩, ⟨"##ry", "PER", 19/20⟩]
        = some [⟨"Harry", "PER", 9/10⟩]
    ∧ reconstruct_entities ([] : List Tok) = some [] := by
  refine ⟨reconstruct_entities_eq toks h,
    groupRuns_join toks.length toks (le_refl _),
    groupRuns_runs_shape toks.length toks (le_refl _) (headOk_forall h),
    ?_, ?_, rfl⟩
  · intro r hr
    have hscore : (mergeRun r).score = (r.2.map Tok.score).foldl min r.1.score := by
      simp [mergeRun, List.foldl_map]
    refine ⟨rfl, ?_, ?_⟩
    · rw [hscore]
      exact foldl_min_mem (r.2.map Tok.score) r.1.score
    · intro s hs
      rw [hscore]
      exact foldl_min_le (r.2.map Tok.score) r.1.score s hs
  · have hmin : min ((9:ℚ)/10) (19/20) = 9/10 := min_eq_left (by norm_num)
    have h1 : pyStartsWith "Har" "##" = false := by decide
    have h2 : pyStartsWith "##ry" "##" = true := by decide
    have hdrop : ("##ry".drop 2) = "ry" := by decide
    have happ : "Har" ++ "ry" = "Harry" := by decide
    simp [reconstruct_entities, reconLoop, absorb, h1, h2, hdrop, happ, hmin]

theorem C1_witness :
    headOk [⟨"Har", "PER", 9/10⟩, ⟨"##ry", "PER", 19/20⟩]
    ∧ reconstruct_entities [⟨"Har", "PER", 9/10⟩, ⟨"##ry", "PER", 19/20⟩]
      = some ((groupRuns [⟨"Har", "PER", 9/10⟩, ⟨"##ry", "PER", 19/20⟩]).map
          mergeRun) :=
  ⟨by decide,
   (C1_reconstruct_entities_merges_runs
     [⟨"Har", "PER", 9/10⟩, ⟨"##ry", "PER", 19/20⟩] (by decide)).1⟩

/-- Claim C9: reconstruct_entities fails (Python TypeError on the None
accumulator) whenever the first token of a non-empty input is a
continuation token. -/
theorem C9_reconstruct_entities_cont_first_fails (t : Tok) (rest : List Tok)
    (h : pyStartsWith t.word "##" = true) :
    reconstruct_entities (t :: rest) = none := by
  simp [reconstruct_entities, reconLoop, h]

theorem C9_witness :
    reconstruct_entities [⟨"##ry", "PER", 1/2⟩] = none :=
  C9_reconstruct_entities_cont_first_fails ⟨"##ry", "PER", 1/2⟩ [] (by decide)

/-- A single label prediction of the emotion oracle: Python dict with keys
label and score. -/
structure Pred where
  label : String
  score : ℚ
deriving DecidableEq

/-- One ranked mood as returned by detect_mood: Python dict with keys mood
and confidence. -/
structure MoodScore where
  mood : String
  confidence : ℚ
deriving DecidableEq

/-- Python str.lower, modelled over the character list (oracle labels are
ASCII emotion names, for which Char.toLower agrees with Python). -/
def pyLower (s : String) : String :=
  ⟨s.data.map Char.toLower⟩

/-- Python text[:512], the slice of the first 512 code points. -/
def truncate512 (s : String) : String :=
  ⟨s.data.take 512⟩

/-- Integer floor of a rational, written over num and den so that it
evaluates (Int division rounds toward minus infinity for a positive
denominator). -/
def ratFloorZ (x : ℚ) : ℤ :=
  x.num / x.den

/-- Round a rational to the nearest integer, halves to the even neighbour:
the rounding rule of Python's built-in round, which the source applies to
the oracle's score. -/
def roundHalfEven (x : ℚ) : ℤ :=
  if x - ratFloorZ x < mkRat 1 2 then ratFloorZ x
  else if mkRat 1 2 < x - ratFloorZ x then ratFloorZ x + 1
  else if ratFloorZ x % 2 = 0 then ratFloorZ x else ratFloorZ x + 1

/-- Python round(score, 3): scale by 1000, round to the nearest integer,
scale back. -/
def round3 (q : ℚ) : ℚ :=
  mkRat (roundHalfEven (q * 1000)) 1000

/-- The comparison detect_mood sorts by: descending score, the Python
list.sort key with reverse=True. -/
def predGE (a b : Pred) : Prop :=
  b.score ≤ a.score

instance : DecidableRel predGE :=
  fun a b => inferInstanceAs (Decidable (b.score ≤ a.score))

instance : IsTotal Pred predGE :=
  ⟨fun a b => le_total b.score a.score⟩

instance : IsTrans Pred predGE :=
  ⟨fun _ _ _ hab hbc => le_trans hbc hab⟩

/-- detect_mood (mood.py lines 47-87): truncate the text to 512 characters,
run the emotion oracle, filter by the inclusive threshold, stable-sort
descending by score (Python's list.sort is stable; insertion sort with this
comparison is the same stable order), cut to k entries when k is positive,
then lowercase the labels and round the confidences to 3 digits. The Python
defaults are k = 1 and threshold = 0. -/
def detect_mood (oracle : String → List Pred) (text : String)
    (k : Int) (threshold : ℚ) : List MoodScore :=
  let preds := oracle (truncate512 text)
  let filtered := preds.filter fun p => decide (threshold ≤ p.score)
  let sorted := filtered.insertionSort predGE
  let trimmed := if 0 < k then sorted.take k.toNat else sorted
  trimmed.map fun p => ⟨pyLower p.label, round3 p.score⟩

theorem ratFloorZ_eq (x : ℚ) : ratFloorZ x = ⌊x⌋ :=
  Rat.floor_def.symm

theorem roundHalfEven_cases (x : ℚ) :
    roundHalfEven x = ⌊x⌋ ∨ roundHalfEven x = ⌊x⌋ + 1 := by
  unfold roundHalfEven
  simp only [ratFloorZ_eq]
  split_ifs <;> simp

theorem roundHalfEven_mono {x y : ℚ} (h : x ≤ y) :
    roundHalfEven x ≤ roundHalfEven y := by
  have hf : ⌊x⌋ ≤ ⌊y⌋ := Int.floor_le_floor h
  rcases lt_or_eq_of_le hf with hlt | heq
  · have h1 : roundHalfEven x ≤ ⌊x⌋ + 1 := by
      rcases roundHalfEven_cases x with h2 | h2 <;> omega
    have h3 : ⌊y⌋ ≤ roundHalfEven y := by
      rcases roundHalfEven_cases y with h2 | h2 <;> omega
    omega
  · have hhalf : (mkRat 1 2 : ℚ) = 1/2 := by
      rw [Rat.mkRat_eq_divInt, Rat.divInt_eq_div]
      norm_num
    unfold roundHalfEven
    simp only [ratFloorZ_eq, hhalf, ← heq]
    have hfy : x - (⌊x⌋ : ℚ) ≤ y - (⌊x⌋ : ℚ) := by linarith
    split_ifs <;> first | omega | linarith

theorem round3_mono {a b : ℚ} (h : a ≤ b) : round3 a ≤ round3 b := by
  have h1 : roundHalfEven (a * 1000) ≤ roundHalfEven (b * 1000) :=
    roundHalfEven_mono (by linarith)
  unfold round3
  rw [Rat.mkRat_eq_divInt, Rat.divInt_eq_div, Rat.mkRat_eq_divInt,
    Rat.divInt_eq_div]
  rw [div_le_div_iff_of_pos_right (by norm_num)]
  exact_mod_cast h1

theorem filter_orderedInsert (a : Pred) (l : List Pred) (c : ℚ) :
    (List.orderedInsert predGE a l).filter (fun p => decide (p.score = c)) =
      (a :: l).filter (fun p => decide (p.score = c)) := by
  induction l with
  | nil => rfl
  | cons b t ih =>
    by_cases hab : predGE a b
    · rw [List.orderedInsert, if_pos hab]
    · rw [List.orderedInsert, if_neg hab]
      have hlt : a.score < b.score := lt_of_not_le hab
      by_cases hb : b.score = c
      · by_cases ha : a.score = c
        · exact absurd (ha.trans hb.symm) (ne_of_lt hlt)
        · simp [List.filter_cons, ih, ha, hb]
      · by_cases ha : a.score = c
        · simp [List.filter_cons, ih, ha, hb]
        · simp [List.filter_cons, ih, ha, hb]

theorem filter_insertionSort (l : List Pred) (c : ℚ) :
    (l.insertionSort predGE).filter (fun p => decide (p.score = c)) =
      l.filter (fun p => decide (p.score = c)) := by
  induction l with
  | nil => rfl
  | cons a t ih =>
    rw [List.insertionSort, filter_orderedInsert]
    simp only [List.filter_cons]
    rw [ih]

theorem detect_mood_eq (oracle : String → List Pred) (text : String)
    (k : Int) (threshold : ℚ) :
    detect_mood oracle text k threshold =
      (if 0 < k then
        (((oracle (truncate512 text)).filter
          fun p => decide (threshold ≤ p.score)).insertionSort predGE).take
            k.toNat
       else ((oracle (truncate512 text)).filter
          fun p => decide (threshold ≤ p.score)).insertionSort predGE).map
        fun p => ⟨pyLower p.label, round3 p.score⟩ :=
  rfl

set_option maxHeartbeats 2000000 in
/-- Claim C3: detect_mood returns exactly the oracle labels whose score
meets the inclusive threshold, in descending score order with ties kept in
the oracle's original order (the list s below is uniquely determined by the
permutation, sortedness and stability conjuncts), truncated to k entries
when k is positive and unlimited otherwise, with labels lowercased and
confidences rounded to 3 digits; an empty qualifying set gives the empty
list, not an error. -/
theorem C3_detect_mood_spec (oracle : String → List Pred) (text : String)
    (k : Int) (threshold : ℚ) :
    ∃ s : List Pred,
      s.Perm ((oracle (truncate512 text)).filter
        fun p => decide (threshold ≤ p.score))
      ∧ s.Pairwise predGE
      ∧ (∀ c : ℚ, s.filter (fun p => decide (p.score = c)) =
          ((oracle (truncate512 text)).filter
            (fun p => decide (threshold ≤ p.score))).filter
              (fun p => decide (p.score = c)))
      ∧ detect_mood oracle text k threshold =
          (if 0 < k then s.take k.toNat else s).map
            (fun p => ⟨pyLower p.label, round3 p.score⟩)
      ∧ (detect_mood oracle text k threshold).Pairwise
          (fun a b => b.confidence ≤ a.confidence)
      ∧ ((∀ p ∈ oracle (truncate512 text), p.score < threshold) →
          detect_mood oracle text k threshold = []) := by
  refine ⟨((oracle (truncate512 text)).filter
      fun p => decide (threshold ≤ p.score)).insertionSort predGE,
    List.perm_insertionSort predGE _,
    List.sorted_insertionSort predGE _,
    fun c => filter_insertionSort _ c,
    detect_mood_eq oracle text k threshold, ?_, ?_⟩
  · have hsorted : (((oracle (truncate512 text)).filter
        fun p => decide (threshold ≤ p.score)).insertionSort predGE).Pairwise
          predGE :=
      List.sorted_insertionSort predGE _
    have htrim : ((if 0 < k then
        (((oracle (truncate512 text)).filter
          fun p => decide (threshold ≤ p.score)).insertionSort predGE).take
            k.toNat
        else (((oracle (truncate512 text)).filter
          fun p => decide (threshold ≤ p.score)).insertionSort
            predGE))).Pairwise predGE := by
      by_cases hk : 0 < k
      · rw [if_pos hk]
        exact hsorted.sublist (List.take_sublist _ _)
      · rw [if_neg hk]
        exact hsorted
    rw [detect_mood_eq, List.pairwise_map]
    exact htrim.imp fun hpq => round3_mono hpq
  · intro hall
    have hfil : (oracle (truncate512 text)).filter
        (fun p => decide (threshold ≤ p.score)) = [] := by
      rw [List.filter_eq_nil_iff]
      intro p hp
      simpa using not_le.mpr (hall p hp)
    rw [detect_mood_eq, hfil]
    simp

/-- A concrete emotion oracle used to instantiate the detect_mood claims. -/
def moodOracleA : String → List Pred :=
  fun _ => [⟨"JOY", 0⟩, ⟨"ANGER", 1⟩]

theorem C3_witness : detect_mood moodOracleA "x" 1 2 = [] := by
  obtain ⟨s, -, -, -, -, -, h6⟩ := C3_detect_mood_spec moodOracleA "x" 1 2
  exact h6 (by decide)

/-- Claim C8: detect_mood passes only the first 512 characters of the text
to the emotion oracle: its result on any text equals its result on the
512-character prefix, and any two texts sharing that prefix give equal
results. -/
theorem C8_truncation (oracle : String → List Pred) (text : String)
    (k : Int) (threshold : ℚ) :
    detect_mood oracle text k threshold =
      detect_mood oracle (truncate512 text) k threshold
    ∧ ∀ t2 : String, truncate512 t2 = truncate512 text →
        detect_mood oracle t2 k threshold =
          detect_mood oracle text k threshold := by
  have hidem : truncate512 (truncate512 text) = truncate512 text := by
    simp [truncate512, List.take_take]
  constructor
  · unfold detect_mood
    rw [hidem]
  · intro t2 h2
    unfold detect_mood
    rw [h2]

theorem C8_witness :
    detect_mood moodOracleA "abc" 1 0 =
      detect_mood moodOracleA (truncate512 "abc") 1 0 :=
  (C8_truncation moodOracleA "abc" 1 0).1

/-- A dependency-parsed token of the parser oracle, exposing the spaCy
attributes the source reads: dep (dependency role), pos (part of speech)
and lem (the lemma, spaCy attribute lemma followed by an underscore). -/
structure PTok where
  dep : String
  pos : String
  lem : String
deriving DecidableEq

/-- extract_action (extraction.py lines 109-124). The parser oracle yields
the sentence list doc.sents. In the source, the guard `if not doc.sents`
never fires: doc.sents is a generator object and a generator object is
always truthy in Python, whatever it would yield. So on a parse with no
sentences the subsequent next(doc.sents) raises an uncaught StopIteration,
modelled as an error value; otherwise the first sentence is scanned for the
first token whose dependency role is ROOT and whose part of speech starts
with V, and its lemma is returned lowercased, or None when no such token
exists. -/
def extract_action (oracle : String → List (List PTok)) (text : String) :
    Except String (Option String) :=
  match oracle text with
  | [] => Except.error "StopIteration"
  | sent :: _ =>
    match sent.find? (fun t => t.dep == "ROOT" && pyStartsWith t.pos "V") with
    | none => Except.ok none
    | some root => Except.ok (some (pyLower root.lem))

/-- Claim C4 (code bug in the source): on the empty string — whose parse
has no sentences — extract_action raises an uncaught StopIteration instead
of returning None: the guard `if not doc.sents` is dead code because
doc.sents is a generator object and therefore always truthy. -/
theorem C4_extract_action_empty_raises :
    extract_action (fun _ => []) "" = Except.error "StopIteration" :=
  rfl

theorem find_unique {α : Type} (p : α → Bool) :
    ∀ (l : List α) (t : α), t ∈ l → p t = true →
      (∀ u ∈ l, p u = true → u = t) → l.find? p = some t := by
  intro l
  induction l with
  | nil => intro t ht; simp at ht
  | cons a l ih =>
    intro t ht hp huniq
    by_cases ha : p a = true
    · have hat : a = t := huniq a (List.mem_cons_self a l) ha
      rw [List.find?_cons_of_pos l ha, hat]
    · have hta : t ≠ a := fun he => ha (he ▸ hp)
      have ht2 : t ∈ l := by
        rcases List.mem_cons.mp ht with rfl | h2
        · exact absurd rfl hta
        · exact h2
      rw [List.find?_cons_of_neg l ha]
      exact ih t ht2 hp fun u hu hpu =>
        huniq u (List.mem_cons_of_mem a hu) hpu

/-- Claim C7: when the parse has at least one sentence, extract_action
depends only on the first sentence: it returns the lowercased lemma of the
token marked as the sentence's grammatical root with a verb-like part of
speech, and None when the first sentence has no such token. -/
theorem C7_extract_action_first_sentence (oracle : String → List (List PTok))
    (text : String) (sent : List PTok) (rest : List (List PTok))
    (h : oracle text = sent :: rest) :
    extract_action oracle text =
      Except.ok ((sent.find? fun t =>
        t.dep == "ROOT" && pyStartsWith t.pos "V").map fun t => pyLower t.lem)
    ∧ ((∀ t ∈ sent, ¬(t.dep = "ROOT" ∧ pyStartsWith t.pos "V" = true)) →
        extract_action oracle text = Except.ok none)
    ∧ (∀ t, t ∈ sent → t.dep = "ROOT" → pyStartsWith t.pos "V" = true →
        (∀ u ∈ sent, u.dep = "ROOT" → pyStartsWith u.pos "V" = true → u = t) →
        extract_action oracle text = Except.ok (some (pyLower t.lem))) := by
  have hbase : extract_action oracle text =
      Except.ok ((sent.find? fun t =>
        t.dep == "ROOT" && pyStartsWith t.pos "V").map fun t =>
          pyLower t.lem) := by
    simp only [extract_action, h]
    cases hf : sent.find? fun t => t.dep == "ROOT" && pyStartsWith t.pos "V"
    · rfl
    · rfl
  refine ⟨hbase, ?_, ?_⟩
  · intro hnone
    rw [hbase]
    have hfn : (sent.find? fun t =>
        t.dep == "ROOT" && pyStartsWith t.pos "V") = none := by
      rw [List.find?_eq_none]
      intro t ht
      intro hpt
      rcases Bool.and_eq_true_iff.mp hpt with ⟨hdep, hpos⟩
      exact hnone t ht ⟨by simpa using hdep, hpos⟩
    rw [hfn]
    rfl
  · intro t ht hdep hpos huniq
    rw [hbase]
    have hft : (sent.find? fun t =>
        t.dep == "ROOT" && pyStartsWith t.pos "V") = some t := by
      refine find_unique _ sent t ht ?_ ?_
      · simp [hdep, hpos]
      · intro u hu hpu
        rcases Bool.and_eq_true_iff.mp hpu with ⟨hdu, hpu2⟩
        exact huniq u hu (by simpa using hdu) hpu2
    rw [hft]
    rfl

/-- A concrete parser oracle modelling the spaCy parse of the sentence used
in the spec's example, reduced to the attributes the source reads. -/
def parseOracleRun : String → List (List PTok) :=
  fun _ => [[⟨"nsubj", "PROPN", "Harry"⟩, ⟨"ROOT", "VERB", "run"⟩,
             ⟨"prep", "ADP", "toward"⟩]]

theorem C7_witness :
    extract_action parseOracleRun
      "Harry and Hermione are running toward the station" =
      Except.ok (some "run") := by
  have h := (C7_extract_action_first_sentence parseOracleRun
    "Harry and Hermione are running toward the station"
    [⟨"nsubj", "PROPN", "Harry"⟩, ⟨"ROOT", "VERB", "run"⟩,
     ⟨"prep", "ADP", "toward"⟩] [] rfl).1
  exact h.trans (by rfl)

/-- Python str.strip with no argument: remove leading and trailing
whitespace, modelled over the character list. -/
def pyStrip (s : String) : String :=
  ⟨((s.data.dropWhile Char.isWhitespace).reverse.dropWhile
      Char.isWhitespace).reverse⟩

/-- The fixed default style literal _DEF_IMG_STYLE of prompt.py. -/
def _DEF_IMG_STYLE : String :=
  "highly detailed digital art, cinematic lighting, 8k resolution, trending on ArtStation"

/-- The fixed five-entry mood-to-descriptor table of prompt.py, an
association list standing for the Python dict MOOD_AUDIO_MAP. -/
def MOOD_AUDIO_MAP : List (String × String) :=
  [("joy", "bright strings and upbeat tempo"),
   ("sadness", "slow piano with reverb"),
   ("fear", "dissonant drones and suspenseful pulses"),
   ("anger", "heavy percussion and distorted synths"),
   ("surprise", "sharp staccato notes")]

/-- The helper _partition_entities of prompt.py: collect PER texts and LOC
texts in order, dropping other types. -/
def _partition_entities : List Entity → List String × List String
  | [] => ([], [])
  | e :: rest =>
    let pr := _partition_entities rest
    if e.type = "PER" then (e.text :: pr.1, pr.2)
    else if e.type = "LOC" then (pr.1, e.text :: pr.2)
    else pr

/-- The optional-fragment rule of prompt.py under Python truthiness: an
absent value and the empty string both contribute nothing, used for the
action (`if action:`) and the style override (`if style:`). -/
def optFragment : Option String → List String
  | some a => if a = "" then [] else [a]
  | none => []

/-- build_image_prompt (prompt.py lines 55-90). The analyzers run in source
order (entities, mood, action) and their failures propagate: a TypeError
from the entity merge, an IndexError from detect_mood(text)[0] on an empty
mood list, a StopIteration from extract_action. Python truthiness governs
the optional fragments: `people or ["a figure"]` substitutes the generic
subject for an empty people list, `if action:` and `if style:` also treat
the empty string as absent, `if places:` tests for the empty list. -/
def build_image_prompt (nerOracle : String → List Tok)
    (moodOracle : String → List Pred) (parseOracle : String → List (List PTok))
    (text : String) (style : Option String) (include_context : Bool) :
    Except String String :=
  match perform_ner nerOracle text with
  | none => Except.error "TypeError"
  | some ents =>
    match (detect_mood moodOracle text 1 0).head? with
    | none => Except.error "IndexError"
    | some m =>
      match extract_action parseOracle text with
      | Except.error e => Except.error e
      | Except.ok action =>
        let pl := _partition_entities ents
        let parts1 : List String := if pl.1.isEmpty then ["a figure"] else pl.1
        let parts2 : List String := parts1 ++ optFragment action
        let parts3 : List String := parts2 ++ (if pl.2.isEmpty then []
          else ["in " ++ String.intercalate ", " pl.2])
        let parts4 : List String := parts3 ++ ["mood: " ++ m.mood]
        let parts5 : List String := parts4 ++ [_DEF_IMG_STYLE]
        let parts6 : List String := parts5 ++ optFragment style
        let instructions := String.intercalate "; " parts6
        if include_context then
          Except.ok ("### CONTEXT\n" ++ pyStrip text ++
            "\n\n### IMAGE INSTRUCTIONS\n" ++ instructions)
        else
          Except.ok instructions

/-- build_audio_prompt (prompt.py lines 93-97): look the top mood up in the
fixed table, defaulting to the ambient-soundscape descriptor, and append
the loop suffix. -/
def build_audio_prompt (moodOracle : String → List Pred) (text : String) :
    Except String String :=
  match (detect_mood moodOracle text 1 0).head? with
  | none => Except.error "IndexError"
  | some m =>
    Except.ok (((MOOD_AUDIO_MAP.lookup m.mood).getD "ambient soundscape")
      ++ " loop")

/-- Claim C6: for a text with a top detected mood, build_audio_prompt
returns the table descriptor for that mood followed by a space and the
word loop, the ambient-soundscape descriptor for any unmapped mood, and in
particular the two literal outputs for joy and for neutral. -/
theorem C6_build_audio_prompt (moodOracle : String → List Pred)
    (text : String) (m : MoodScore) (ms : List MoodScore)
    (h : detect_mood moodOracle text 1 0 = m :: ms) :
    build_audio_prompt moodOracle text =
      Except.ok (((MOOD_AUDIO_MAP.lookup m.mood).getD "ambient soundscape")
        ++ " loop")
    ∧ (∀ d, (m.mood, d) ∈ MOOD_AUDIO_MAP →
        build_audio_prompt moodOracle text = Except.ok (d ++ " loop"))
    ∧ ((∀ d, (m.mood, d) ∉ MOOD_AUDIO_MAP) →
        build_audio_prompt moodOracle text =
          Except.ok "ambient soundscape loop")
    ∧ (m.mood = "joy" →
        build_audio_prompt moodOracle text =
          Except.ok "bright strings and upbeat tempo loop")
    ∧ (m.mood = "neutral" →
        build_audio_prompt moodOracle text =
          Except.ok "ambient soundscape loop") := by
  have hbase : build_audio_prompt moodOracle text =
      Except.ok (((MOOD_AUDIO_MAP.lookup m.mood).getD "ambient soundscape")
        ++ " loop") := by
    simp only [build_audio_prompt, h, List.head?_cons]
  refine ⟨hbase, ?_, ?_, ?_, ?_⟩
  · intro d hd
    rw [hbase]
    simp only [MOOD_AUDIO_MAP, List.mem_cons, List.not_mem_nil, or_false,
      Prod.mk.injEq] at hd
    rcases hd with ⟨h1, h2⟩ | ⟨h1, h2⟩ | ⟨h1, h2⟩ | ⟨h1, h2⟩ | ⟨h1, h2⟩ <;>
      rw [h1, h2] <;> rfl
  · intro hnone
    rw [hbase]
    have hj : ¬(m.mood = "joy") := fun he => hnone
      "bright strings and upbeat tempo" (by rw [he]; simp [MOOD_AUDIO_MAP])
    have hs : ¬(m.mood = "sadness") := fun he => hnone
      "slow piano with reverb" (by rw [he]; simp [MOOD_AUDIO_MAP])
    have hf : ¬(m.mood = "fear") := fun he => hnone
      "dissonant drones and suspenseful pulses"
      (by rw [he]; simp [MOOD_AUDIO_MAP])
    have ha : ¬(m.mood = "anger") := fun he => hnone
      "heavy percussion and distorted synths"
      (by rw [he]; simp [MOOD_AUDIO_MAP])
    have hr : ¬(m.mood = "surprise") := fun he => hnone
      "sharp staccato notes" (by rw [he]; simp [MOOD_AUDIO_MAP])
    have hj2 : (m.mood == "joy") = false := beq_eq_false_iff_ne.mpr hj
    have hs2 : (m.mood == "sadness") = false := beq_eq_false_iff_ne.mpr hs
    have hf2 : (m.mood == "fear") = false := beq_eq_false_iff_ne.mpr hf
    have ha2 : (m.mood == "anger") = false := beq_eq_false_iff_ne.mpr ha
    have hr2 : (m.mood == "surprise") = false := beq_eq_false_iff_ne.mpr hr
    simp [MOOD_AUDIO_MAP, List.lookup, hj2, hs2, hf2, ha2, hr2]
  · intro hjoy
    rw [hbase, hjoy]
    rfl
  · intro hneu
    rw [hbase, hneu]
    rfl

/-- A concrete emotion oracle whose top label is joy. -/
def moodOracleJoy : String → List Pred :=
  fun _ => [⟨"joy", 1⟩]

theorem C6_witness :
    build_audio_prompt moodOracleJoy "t" =
      Except.ok "bright strings and upbeat tempo loop" := by
  have h : detect_mood moodOracleJoy "t" 1 0 = [⟨"joy", round3 1⟩] := by
    rw [detect_mood_eq]
    rfl
  exact (C6_build_audio_prompt moodOracleJoy "t" ⟨"joy", round3 1⟩ [] h).2.2.2.1
    rfl

/-- Modelled on the claim wording for build_image_prompt: the ordered
fragment list, where the action fragment is present exactly when the action
is present and the style fragment is present exactly when a style is
given. -/
def image_fragments_claim (people places : List String)
    (action : Option String) (mood : String) (style : Option String) :
    List String :=
  (if people = [] then ["a figure"] else people)
  ++ action.toList
  ++ (if places = [] then [] else ["in " ++ String.intercalate ", " places])
  ++ (("mood: " ++ mood) :: _DEF_IMG_STYLE :: style.toList)

/-- The amended fragment list: a caller-supplied empty-string style is
treated as absent, matching Python truthiness in the source. -/
def image_fragments_amended (people places : List String)
    (action : Option String) (mood : String) (style : Option String) :
    List String :=
  (if people = [] then ["a figure"] else people)
  ++ action.toList
  ++ (if places = [] then [] else ["in " ++ String.intercalate ", " places])
  ++ (("mood: " ++ mood) :: _DEF_IMG_STYLE ::
      (style.toList.filter fun st => !(st == "")))

/-- The surrounding output shape of build_image_prompt: the instruction
string verbatim, or the two-section context form. -/
def assemble_image_prompt (text instructions : String)
    (include_context : Bool) : String :=
  if include_context then
    "### CONTEXT\n" ++ pyStrip text ++ "\n\n### IMAGE INSTRUCTIONS\n"
      ++ instructions
  else instructions

theorem parts_eq_amended (people places : List String) (act : Option String)
    (mood : String) (style : Option String) (hactne : act ≠ some "") :
    ((((((if people.isEmpty then ["a figure"] else people)
      ++ optFragment act) ++ (if places.isEmpty then []
        else ["in " ++ String.intercalate ", " places])) ++ ["mood: " ++ mood])
      ++ [_DEF_IMG_STYLE]) ++ optFragment style) =
    image_fragments_amended people places act mood style := by
  unfold image_fragments_amended optFragment
  rcases act with _ | a
  · rcases style with _ | st
    · simp [List.isEmpty_iff, List.append_assoc]
    · by_cases hst : st = "" <;>
        simp [hst, List.isEmpty_iff, List.append_assoc]
  · have ha : ¬(a = "") := fun he => hactne (by rw [he])
    rcases style with _ | st
    · simp [ha, List.isEmpty_iff, List.append_assoc]
    · by_cases hst : st = "" <;>
        simp [ha, hst, List.isEmpty_iff, List.append_assoc]

/-- Claim C5 fails on the code at a concrete input: with no people, no
places, no action and top mood joy, a caller-supplied empty style override
is dropped by the source (Python truthiness), while the claim prescribes
appending it, which under the semicolon join would add a trailing
separator. -/
theorem C5_counterexample :
    perform_ner (fun _ => []) "t" = some []
    ∧ extract_action (fun _ => [[⟨"det", "DET", "the"⟩]]) "t" = Except.ok none
    ∧ (detect_mood moodOracleJoy "t" 1 0).head? = some ⟨"joy", round3 1⟩
    ∧ build_image_prompt (fun _ => []) moodOracleJoy
        (fun _ => [[⟨"det", "DET", "the"⟩]]) "t" (some "") false =
        Except.ok ("a figure; mood: joy; " ++ _DEF_IMG_STYLE)
    ∧ String.intercalate "; "
        (image_fragments_claim [] [] none "joy" (some "")) =
        "a figure; mood: joy; " ++ _DEF_IMG_STYLE ++ "; "
    ∧ "a figure; mood: joy; " ++ _DEF_IMG_STYLE ≠
        "a figure; mood: joy; " ++ _DEF_IMG_STYLE ++ "; " := by
  refine ⟨rfl, rfl, rfl, rfl, rfl, ?_⟩
  intro he
  have hlen := congrArg String.length he
  simp [String.length_append] at hlen
  exact absurd hlen (by decide)

/-- Claim C5 amended: when the three analyzer calls succeed (and the parser
lemma is not the empty string), build_image_prompt is the semicolon join of
the fixed-order fragments — people texts or the literal a-figure subject,
the action if present, the in-prefixed location list if any, the mood tag,
the default style literal, and the caller style if given and non-empty —
returned verbatim, or wrapped in the CONTEXT and IMAGE INSTRUCTIONS
sections around the trimmed input when include_context is set; the subject
fragment is the a-figure literal whenever no people were found. -/
theorem C5_build_image_prompt_amended (nerOracle : String → List Tok)
    (moodOracle : String → List Pred)
    (parseOracle : String → List (List PTok))
    (text : String) (style : Option String) (include_context : Bool)
    (ents : List Entity) (hner : perform_ner nerOracle text = some ents)
    (m : MoodScore) (ms : List MoodScore)
    (hmood : detect_mood moodOracle text 1 0 = m :: ms)
    (act : Option String)
    (hact : extract_action parseOracle text = Except.ok act)
    (hactne : act ≠ some "") :
    build_image_prompt nerOracle moodOracle parseOracle text style
        include_context =
      Except.ok (assemble_image_prompt text
        (String.intercalate "; "
          (image_fragments_amended (_partition_entities ents).1
            (_partition_entities ents).2 act m.mood style)) include_context)
    ∧ ((_partition_entities ents).1 = [] →
        (image_fragments_amended (_partition_entities ents).1
          (_partition_entities ents).2 act m.mood style).head? =
          some "a figure") := by
  constructor
  · have hparts := parts_eq_amended (_partition_entities ents).1
      (_partition_entities ents).2 act m.mood style hactne
    simp only [build_image_prompt, hner, hmood, hact, List.head?_cons]
    rw [hparts]
    cases include_context <;> rfl
  · intro hp
    simp [image_fragments_amended, hp]

/-- A concrete NER oracle finding one person and one location. -/
def nerOracleHarry : String → List Tok :=
  fun _ => [⟨"Harry", "PER", 1⟩, ⟨"Hogwarts", "LOC", 1⟩]

theorem C5_witness :
    build_image_prompt nerOracleHarry moodOracleJoy parseOracleRun "A tale."
      (some "dark") true =
      Except.ok ("### CONTEXT\nA tale.\n\n### IMAGE INSTRUCTIONS\n"
        ++ "Harry; run; in Hogwarts; mood: joy; " ++ _DEF_IMG_STYLE
        ++ "; dark") := by
  have h := (C5_build_image_prompt_amended nerOracleHarry moodOracleJoy
    parseOracleRun "A tale." (some "dark") true
    [⟨"Harry", "PER", 1⟩, ⟨"Hogwarts", "LOC", 1⟩] rfl
    ⟨"joy", round3 1⟩ [] (by rw [detect_mood_eq]; rfl)
    (some "run") rfl (by simp)).1
  exact h.trans (by rfl)

/-- Claim C2 fails on the code: nothing deduplicates, so an oracle output
with two separate Harry tokens yields two entities with identical text and
type in one call. -/
theorem C2_counterexample :
    reconstruct_entities [⟨"Harry", "PER", 1⟩, ⟨"Harry", "PER", 0⟩] =
      some [⟨"Harry", "PER", 1⟩, ⟨"Harry", "PER", 0⟩]
    ∧ ¬([(⟨"Harry", "PER", 1⟩ : Entity), ⟨"Harry", "PER", 0⟩].Pairwise
        fun a b => a.text ≠ b.text ∨ a.type ≠ b.type) := by
  constructor
  · rfl
  · intro hp
    rcases List.pairwise_cons.mp hp with ⟨h1, -⟩
    rcases h1 _ (List.mem_cons_self _ _) with h2 | h2 <;> exact h2 rfl

/-- Claim C2 amended: merging resolves nothing beyond sub-word runs, so
distinctness holds exactly when the oracle output induces it: if the merged
runs are pairwise distinct on (text, type), the returned Entity list is,
and if the oracle's lowercased labels are pairwise distinct, the returned
MoodScore labels are; the code itself performs no deduplication. -/
theorem C2_no_duplicates_amended
    (toks : List Tok) (h : headOk toks)
    (hruns : ((groupRuns toks).map mergeRun).Pairwise
      fun a b => a.text ≠ b.text ∨ a.type ≠ b.type)
    (moodOracle : String → List Pred) (text : String) (k : Int)
    (threshold : ℚ)
    (hlabels : (moodOracle (truncate512 text)).Pairwise
      fun p q => pyLower p.label ≠ pyLower q.label) :
    (∃ l, reconstruct_entities toks = some l ∧
      l.Pairwise fun a b => a.text ≠ b.text ∨ a.type ≠ b.type)
    ∧ (detect_mood moodOracle text k threshold).Pairwise
        fun a b => a.mood ≠ b.mood := by
  constructor
  · exact ⟨_, reconstruct_entities_eq toks h, hruns⟩
  · rw [detect_mood_eq, List.pairwise_map]
    have h1 : ((moodOracle (truncate512 text)).filter
        fun p => decide (threshold ≤ p.score)).Pairwise
          (fun p q => pyLower p.label ≠ pyLower q.label) :=
      hlabels.filter _
    have h2 : (((moodOracle (truncate512 text)).filter
        fun p => decide (threshold ≤ p.score)).insertionSort
          predGE).Pairwise (fun p q => pyLower p.label ≠ pyLower q.label) :=
      ((List.perm_insertionSort predGE _).pairwise_iff
        fun hxy => hxy.symm).mpr h1
    have h3 : ((if 0 < k then
        (((moodOracle (truncate512 text)).filter
          fun p => decide (threshold ≤ p.score)).insertionSort predGE).take
            k.toNat
        else ((moodOracle (truncate512 text)).filter
          fun p => decide (threshold ≤ p.score)).insertionSort
            predGE)).Pairwise
          (fun p q => pyLower p.label ≠ pyLower q.label) := by
      by_cases hk : 0 < k
      · rw [if_pos hk]
        exact h2.sublist (List.take_sublist _ _)
      · rw [if_neg hk]
        exact h2
    exact h3.imp fun hpq => hpq

theorem C2_witness :
    (∃ l, reconstruct_entities [⟨"Harry", "PER", 1⟩] = some l ∧
      l.Pairwise fun a b => a.text ≠ b.text ∨ a.type ≠ b.type)
    ∧ (detect_mood moodOracleJoy "t" 1 0).Pairwise
        fun a b => a.mood ≠ b.mood :=
  C2_no_duplicates_amended [⟨"Harry", "PER", 1⟩] (by decide)
    (by simp [groupRuns]) moodOracleJoy "t" 1 0
    (by simp [moodOracleJoy])

/-- The lru_cache-backed lazy oracle loading shared by the analyzers: the
process-wide cache holds the handle after first use; building the handle is
a fixed loader function, and calls thread the cache explicitly. -/
def getOracle {α : Type} (load : Unit → α) : Option α → α × Option α
  | some hdl => (hdl, some hdl)
  | none => (load (), some (load ()))

/-- perform_ner behind its cached pipeline, returning the result and the
updated cache. -/
def perform_ner_st (load : Unit → String → List Tok)
    (cache : Option (String → List Tok)) (text : String) :
    Option (List Entity) × Option (String → List Tok) :=
  let hdlc := getOracle load cache
  (perform_ner hdlc.1 text, hdlc.2)

/-- detect_mood behind its cached pipeline. -/
def detect_mood_st (load : Unit → String → List Pred)
    (cache : Option (String → List Pred)) (text : String) (k : Int)
    (threshold : ℚ) :
    List MoodScore × Option (String → List Pred) :=
  let hdlc := getOracle load cache
  (detect_mood hdlc.1 text k threshold, hdlc.2)

/-- extract_action behind its cached language model. -/
def extract_action_st (load : Unit → String → List (List PTok))
    (cache : Option (String → List (List PTok))) (text : String) :
    Except String (Option String) × Option (String → List (List PTok)) :=
  let hdlc := getOracle load cache
  (extract_action hdlc.1 text, hdlc.2)

/-- Claim C10: each analyzer is deterministic given a fixed oracle loader:
running it twice on the same input from any cache state — the loaded
oracle handles being the only process-wide mutable state — yields
identical outputs, the second call reusing the handle cached by the
first. -/
theorem C10_analyzers_deterministic
    (loadN : Unit → String → List Tok) (loadM : Unit → String → List Pred)
    (loadP : Unit → String → List (List PTok))
    (cN : Option (String → List Tok)) (cM : Option (String → List Pred))
    (cP : Option (String → List (List PTok)))
    (tN tM tP : String) (k : Int) (threshold : ℚ) :
    (perform_ner_st loadN cN tN).1 =
      (perform_ner_st loadN (perform_ner_st loadN cN tN).2 tN).1
    ∧ (detect_mood_st loadM cM tM k threshold).1 =
      (detect_mood_st loadM (detect_mood_st loadM cM tM k threshold).2 tM k
        threshold).1
    ∧ (extract_action_st loadP cP tP).1 =
      (extract_action_st loadP (extract_action_st loadP cP tP).2 tP).1 := by
  refine ⟨?_, ?_, ?_⟩
  · cases cN <;> rfl
  · cases cM <;> rfl
  · cases cP <;> rfl
